import Mathlib

/-!
# Verification of the graphql-loader pipeline (`src/loader.ts`)

A shallow embedding of the loader's document-processing pipeline:

* the GraphQL document fragment of the AST the loader manipulates
  (operations, fragments, selection sets with fields, spreads and inline
  fragments, each node optionally carrying a source location);
* `removeDuplicateFragments`, `removeUnusedFragments` (mark-and-sweep with
  fixpoint), the generic `removeSourceLocations` tree walk (modelled over a
  dynamic JavaScript-value type), `extractImports`' line scanning and
  import-path extraction, `findSchemaFile`'s upward directory search, and the
  top-level `loader` control flow with its external capabilities (file system,
  path resolution, parsing, validation, printing) abstracted as ports.

Machine-level JavaScript behaviours that matter are made explicit: truthiness
of values, `String.prototype.split(" ")` semantics, the greedy regex
`^["'](.+)["']`, and `Array.prototype.filter` with a stateful callback.
-/

namespace GraphQLLoader

/-- A selection inside a selection set.  Mirrors the `SelectionNode` cases the
loader inspects: `Field` (whose `selectionSet` is optional), `FragmentSpread`
and `InlineFragment`.  `loc` models the optional `loc` attribute carried by
AST nodes. -/
inductive Selection where
  | field (name : String) (loc : Option Nat) (selectionSet : Option (List Selection))
  | fragmentSpread (name : String) (loc : Option Nat)
  | inlineFragment (loc : Option Nat) (selectionSet : List Selection)
  deriving Repr

/-- A definition of a document: `OperationDefinition` (optionally named) or
`FragmentDefinition` (named, with a type condition).  Both carry a selection
set, matching the two `DefinitionNode` kinds the loader traverses. -/
inductive Definition where
  | operation (name : Option String) (loc : Option Nat) (selectionSet : List Selection)
  | fragment (name : String) (onType : String) (loc : Option Nat) (selectionSet : List Selection)
  deriving Repr

/-- Embeds a `DocumentNode`: an ordered list of definitions plus an optional `loc`. -/
structure Document where
  definitions : List Definition
  loc : Option Nat := none
  deriving Repr

/-- Embeds `def.kind === "FragmentDefinition"`. -/
def Definition.isFragment : Definition → Bool
  | .fragment _ _ _ _ => true
  | .operation _ _ _ => false

/-- Embeds `def.name.value` of a fragment definition (`none` for operations). -/
def Definition.fragName? : Definition → Option String
  | .fragment n _ _ _ => some n
  | .operation _ _ _ => none

/-- The selection set of a definition. -/
def Definition.selectionSet : Definition → List Selection
  | .fragment _ _ _ ss => ss
  | .operation _ _ ss => ss

/-! ## `removeDuplicateFragments`

The source filters `document.definitions` with a stateful callback over a
`Set` of already-seen fragment names; `Array.prototype.filter` visits
elements in ascending index order, which the accumulator-passing recursion
below reproduces. -/

/-- One pass of the stateful filter of `removeDuplicateFragments`: `seen` is
the set of fragment names already added to `usedName`. -/
def removeDuplicateFragmentsAux : List String → List Definition → List Definition
  | _, [] => []
  | seen, d :: ds =>
    match d.fragName? with
    | none => d :: removeDuplicateFragmentsAux seen ds
    | some name =>
      if name ∈ seen then removeDuplicateFragmentsAux seen ds
      else d :: removeDuplicateFragmentsAux (name :: seen) ds

/-- Embeds `removeDuplicateFragments(document)` (the source mutates
`document.definitions` in place; we return the updated document). -/
def removeDuplicateFragments (doc : Document) : Document :=
  { doc with definitions := removeDuplicateFragmentsAux [] doc.definitions }

/-- Tests whether `d` is a fragment definition named `n`. -/
def fragNamed (n : String) (d : Definition) : Bool :=
  d.fragName? == some n

theorem removeDuplicateFragmentsAux_sublist (seen : List String) (l : List Definition) :
    (removeDuplicateFragmentsAux seen l).Sublist l := by
  induction l generalizing seen with
  | nil => simp [removeDuplicateFragmentsAux]
  | cons d ds ih =>
    simp only [removeDuplicateFragmentsAux]
    cases hd : d.fragName? with
    | none => exact (ih seen).cons₂ d
    | some name =>
      by_cases hmem : name ∈ seen
      · simp only [if_pos hmem]
        exact (ih seen).cons d
      · simp only [if_neg hmem]
        exact (ih (name :: seen)).cons₂ d

theorem removeDuplicateFragmentsAux_ops (seen : List String) (l : List Definition) :
    (removeDuplicateFragmentsAux seen l).filter (fun d => !d.isFragment)
      = l.filter (fun d => !d.isFragment) := by
  induction l generalizing seen with
  | nil => simp [removeDuplicateFragmentsAux]
  | cons d ds ih =>
    simp only [removeDuplicateFragmentsAux]
    cases hd : d.fragName? with
    | none =>
      have hop : d.isFragment = false := by
        cases d with
        | operation _ _ _ => rfl
        | fragment _ _ _ _ => simp [Definition.fragName?] at hd
      simp [List.filter_cons, hop, ih seen]
    | some name =>
      have hfr : d.isFragment = true := by
        cases d with
        | operation _ _ _ => simp [Definition.fragName?] at hd
        | fragment _ _ _ _ => rfl
      by_cases hmem : name ∈ seen
      · simp [if_pos hmem, List.filter_cons, hfr, ih seen]
      · simp [if_neg hmem, List.filter_cons, hfr, ih (name :: seen)]

theorem removeDuplicateFragmentsAux_names (seen : List String) (l : List Definition)
    (n : String) :
    (removeDuplicateFragmentsAux seen l).filter (fragNamed n)
      = if n ∈ seen then [] else (l.filter (fragNamed n)).take 1 := by
  induction l generalizing seen with
  | nil => simp [removeDuplicateFragmentsAux]
  | cons d ds ih =>
    simp only [removeDuplicateFragmentsAux]
    cases hd : d.fragName? with
    | none =>
      have hnot : fragNamed n d = false := by simp [fragNamed, hd]
      simp [List.filter_cons, hnot, ih seen]
    | some name =>
      by_cases hmem : name ∈ seen
      · simp only [if_pos hmem]
        rw [ih seen]
        by_cases hn : n = name
        · subst hn
          simp [hmem, List.filter_cons, fragNamed, hd]
        · have hnot : fragNamed n d = false := by
            simp [fragNamed, hd]
            exact fun h => (hn h.symm).elim
          simp [List.filter_cons, hnot]
      · simp only [if_neg hmem]
        by_cases hn : n = name
        · subst hn
          have hyes : fragNamed n d = true := by simp [fragNamed, hd]
          rw [List.filter_cons_of_pos (by simpa using hyes),
            List.filter_cons_of_pos (by simpa using hyes)]
          rw [ih (n :: seen)]
          simp [hmem]
        · have hnot : fragNamed n d = false := by
            simp [fragNamed, hd]
            exact fun h => (hn h.symm).elim
          rw [List.filter_cons_of_neg (by simpa using hnot),
            List.filter_cons_of_neg (by simpa using hnot)]
          rw [ih (name :: seen)]
          simp [List.mem_cons, hn]

/-- C4: `removeDuplicateFragments` keeps the definitions as a subsequence of
the input (so relative order is preserved and nothing is added), never
removes an operation definition (the non-fragment sublist is untouched), and
for every fragment name the output contains exactly the earliest input
fragment definition of that name — so a fragment definition is dropped
precisely when a same-named fragment occurred earlier in the single pass. -/
theorem removeDuplicateFragments_correct (doc : Document) :
    ((removeDuplicateFragments doc).definitions.Sublist doc.definitions)
    ∧ ((removeDuplicateFragments doc).definitions.filter (fun d => !d.isFragment)
        = doc.definitions.filter (fun d => !d.isFragment))
    ∧ (∀ n : String,
        (removeDuplicateFragments doc).definitions.filter (fragNamed n)
          = (doc.definitions.filter (fragNamed n)).take 1) := by
  refine ⟨removeDuplicateFragmentsAux_sublist [] doc.definitions,
    removeDuplicateFragmentsAux_ops [] doc.definitions, fun n => ?_⟩
  have h := removeDuplicateFragmentsAux_names [] doc.definitions n
  simpa using h

/-! ## `removeUnusedFragments`

The source marks used fragment names by traversing every definition's
selection set (`findFragmentSpreads`/`traverse`), filters out fragment
definitions whose name was not marked, and restarts the whole computation
whenever a pass removed at least one definition. -/

/-- The inner `traverse(selectionSet)`: record every `FragmentSpread`'s name;
for any other selection that has a (truthy) `selectionSet`, descend into it. -/
def traverseSS : List Selection → List String
  | [] => []
  | .fragmentSpread n _ :: rest => n :: traverseSS rest
  | .field _ _ (some ss) :: rest => traverseSS ss ++ traverseSS rest
  | .field _ _ none :: rest => traverseSS rest
  | .inlineFragment _ ss :: rest => traverseSS ss ++ traverseSS rest

/-- Embeds `findFragmentSpreads(document)`: the `usedFragments` set after walking
every definition's selection set (every definition of our document type is an
`OperationDefinition` or a `FragmentDefinition`, so all are traversed). -/
def usedFragments (defs : List Definition) : List String :=
  (defs.map (fun d => traverseSS d.selectionSet)).flatten

/-- The filter callback: `def.kind !== "FragmentDefinition" ||
usedFragments.has(def.name.value)`. -/
def keepDef (used : List String) (d : Definition) : Bool :=
  match d.fragName? with
  | none => true
  | some n => used.contains n

/-- One marking-and-filtering pass of `removeUnusedFragments`. -/
def pruneStep (defs : List Definition) : List Definition :=
  defs.filter (keepDef (usedFragments defs))

/-- The recursion of `removeUnusedFragments`: re-run the whole computation
whenever the pass shrank the definition list, stop when it removed nothing. -/
def pruneAux (defs : List Definition) : List Definition :=
  if (pruneStep defs).length = defs.length then pruneStep defs
  else pruneAux (pruneStep defs)
termination_by defs.length
decreasing_by
  exact lt_of_le_of_ne (List.Sublist.length_le (List.filter_sublist _)) (by assumption)

/-- Embeds `removeUnusedFragments(document)` on a document. -/
def removeUnusedFragments (doc : Document) : Document :=
  { doc with definitions := pruneAux doc.definitions }

/-- A fragment name `n` is transitively reachable, through fragment spreads,
from an operation definition of `defs`: either some operation's selection set
spreads `n`, or some fragment definition whose own name is reachable spreads
`n`. -/
inductive ReachableFromOp (defs : List Definition) : String → Prop where
  | fromOp (d : Definition) (n : String) (hd : d ∈ defs) (hop : d.isFragment = false)
      (hn : n ∈ traverseSS d.selectionSet) : ReachableFromOp defs n
  | fromFrag (d : Definition) (m n : String) (hd : d ∈ defs) (hm : d.fragName? = some m)
      (hr : ReachableFromOp defs m) (hn : n ∈ traverseSS d.selectionSet) :
      ReachableFromOp defs n

theorem mem_usedFragments_of_spread {defs : List Definition} {d : Definition} {n : String}
    (hd : d ∈ defs) (hn : n ∈ traverseSS d.selectionSet) : n ∈ usedFragments defs := by
  unfold usedFragments
  exact List.mem_flatten.mpr ⟨traverseSS d.selectionSet, List.mem_map_of_mem _ hd, hn⟩

theorem mem_usedFragments_of_reachable {defs : List Definition} {n : String}
    (h : ReachableFromOp defs n) : n ∈ usedFragments defs := by
  cases h with
  | fromOp d n hd hop hn => exact mem_usedFragments_of_spread hd hn
  | fromFrag d m n hd hm hr hn => exact mem_usedFragments_of_spread hd hn

theorem isFragment_false_iff (d : Definition) : d.isFragment = false ↔ d.fragName? = none := by
  cases d <;> simp [Definition.isFragment, Definition.fragName?]

theorem mem_pruneStep {defs : List Definition} {d : Definition} (hd : d ∈ defs)
    (hkeep : d.isFragment = false ∨ ∃ n, d.fragName? = some n ∧ ReachableFromOp defs n) :
    d ∈ pruneStep defs := by
  refine List.mem_filter.mpr ⟨hd, ?_⟩
  rcases hkeep with hop | ⟨n, hn, hr⟩
  · simp [keepDef, (isFragment_false_iff d).mp hop]
  · have hmem := mem_usedFragments_of_reachable hr
    simp only [keepDef, hn]
    exact List.contains_iff_exists_mem_beq.mpr ⟨n, hmem, by simp⟩

theorem reachable_pruneStep {defs : List Definition} {n : String}
    (h : ReachableFromOp defs n) : ReachableFromOp (pruneStep defs) n := by
  induction h with
  | fromOp d n hd hop hn =>
    exact .fromOp d n (mem_pruneStep hd (Or.inl hop)) hop hn
  | fromFrag d m n hd hm hr hn ih =>
    exact .fromFrag d m n (mem_pruneStep hd (Or.inr ⟨m, hm, hr⟩)) hm ih hn

theorem mem_pruneAux {defs : List Definition} {d : Definition} (hd : d ∈ defs)
    (hkeep : d.isFragment = false ∨ ∃ n, d.fragName? = some n ∧ ReachableFromOp defs n) :
    d ∈ pruneAux defs := by
  revert hd hkeep
  induction defs using pruneAux.induct with
  | case1 defs heq =>
    intro hd hkeep
    rw [pruneAux, if_pos heq]
    exact mem_pruneStep hd hkeep
  | case2 defs hne ih =>
    intro hd hkeep
    rw [pruneAux, if_neg hne]
    refine ih (mem_pruneStep hd hkeep) ?_
    rcases hkeep with hop | ⟨n, hn, hr⟩
    · exact Or.inl hop
    · exact Or.inr ⟨n, hn, reachable_pruneStep hr⟩

/-- C5: pruning never removes an operation definition, and never removes a
fragment definition whose name is transitively reachable (through fragment
spreads) from some operation definition of the document. -/
theorem removeUnusedFragments_retains (doc : Document) (d : Definition)
    (hd : d ∈ doc.definitions) :
    (d.isFragment = false → d ∈ (removeUnusedFragments doc).definitions)
    ∧ (∀ n, d.fragName? = some n → ReachableFromOp doc.definitions n →
        d ∈ (removeUnusedFragments doc).definitions) := by
  constructor
  · intro hop
    exact mem_pruneAux hd (Or.inl hop)
  · intro n hn hr
    exact mem_pruneAux hd (Or.inr ⟨n, hn, hr⟩)

/-- A document whose operation spreads fragment `A`, used to witness C5. -/
def docW : Document :=
  { definitions := [.operation none none [.fragmentSpread "A" none],
      .fragment "A" "T" none []] }

theorem removeUnusedFragments_retains_witness :
    (Definition.fragment "A" "T" none []) ∈ (removeUnusedFragments docW).definitions
    ∧ (Definition.operation none none [.fragmentSpread "A" none])
        ∈ (removeUnusedFragments docW).definitions := by
  constructor
  · refine (removeUnusedFragments_retains docW _ (by simp [docW])).2 "A" rfl ?_
    exact .fromOp (.operation none none [.fragmentSpread "A" none]) "A" (by simp [docW]) rfl
      (by simp [Definition.selectionSet, traverseSS])
  · exact (removeUnusedFragments_retains docW _ (by simp [docW])).1 rfl

theorem pruneStep_pruneAux (defs : List Definition) :
    pruneStep (pruneAux defs) = pruneAux defs := by
  induction defs using pruneAux.induct with
  | case1 defs heq =>
    have hfix : pruneStep defs = defs :=
      List.Sublist.eq_of_length (List.filter_sublist _) heq
    rw [pruneAux, if_pos heq, hfix, hfix]
  | case2 defs hne ih =>
    rw [pruneAux, if_neg hne]
    exact ih

/-- C7: pruning is idempotent — applying `removeUnusedFragments` twice yields
the same document as applying it once. -/
theorem removeUnusedFragments_idempotent (doc : Document) :
    removeUnusedFragments (removeUnusedFragments doc) = removeUnusedFragments doc := by
  have h := pruneStep_pruneAux doc.definitions
  simp only [removeUnusedFragments]
  congr 1
  conv_lhs => rw [pruneAux]
  simp [h]

/-- A document containing a single self-referential fragment (`fragment A`
spreads `A`) and no operation definition. -/
def cyclicFragDoc : Document :=
  { definitions := [.fragment "A" "T" none [.fragmentSpread "A" none]] }

theorem cyclicFragDoc_not_reachable : ∀ n, ¬ ReachableFromOp cyclicFragDoc.definitions n := by
  intro n h
  induction h with
  | fromOp d n hd hop hn =>
    simp only [cyclicFragDoc, List.mem_singleton] at hd
    subst hd
    simp [Definition.isFragment] at hop
  | fromFrag d m n hd hm hr hn ih =>
    exact ih

theorem pruneStep_cyclicFragDoc :
    pruneStep cyclicFragDoc.definitions = cyclicFragDoc.definitions := by
  simp [cyclicFragDoc, pruneStep, usedFragments, traverseSS, keepDef, Definition.fragName?,
    Definition.selectionSet, List.filter]

theorem pruneAux_cyclicFragDoc :
    pruneAux cyclicFragDoc.definitions = cyclicFragDoc.definitions := by
  rw [pruneAux, if_pos (by rw [pruneStep_cyclicFragDoc])]
  exact pruneStep_cyclicFragDoc

/-- C1 counterexample: with pruning enabled, the self-referential fragment `A`
is retained by `removeUnusedFragments` even though it is not transitively
reachable from any operation definition (the document has none). -/
theorem removeUnusedFragments_retains_unreachable :
    removeUnusedFragments cyclicFragDoc = cyclicFragDoc
    ∧ (Definition.fragment "A" "T" none [.fragmentSpread "A" none])
        ∈ (removeUnusedFragments cyclicFragDoc).definitions
    ∧ (∀ n, ¬ ReachableFromOp cyclicFragDoc.definitions n) := by
  have hres : removeUnusedFragments cyclicFragDoc = cyclicFragDoc := by
    simp only [removeUnusedFragments, pruneAux_cyclicFragDoc]
  refine ⟨hres, ?_, cyclicFragDoc_not_reachable⟩
  rw [hres]
  simp [cyclicFragDoc]

theorem mem_used_of_mem_fixpoint {defs : List Definition} {d : Definition} {n : String}
    (hd : d ∈ pruneAux defs) (hn : d.fragName? = some n) :
    n ∈ usedFragments (pruneAux defs) := by
  have hfix := pruneStep_pruneAux defs
  rw [← hfix] at hd
  have hkeep := (List.mem_filter.mp hd).2
  simp only [keepDef, hn] at hkeep
  obtain ⟨m, hm, hbeq⟩ := List.contains_iff_exists_mem_beq.mp hkeep
  obtain rfl : n = m := by simpa using hbeq
  exact hm

/-- C1 amended: after `removeUnusedFragments`, every retained fragment
definition's name appears in a fragment spread inside the selection set of
some retained definition (operation or fragment) — reachability from an
operation alone does not hold in general. -/
theorem removeUnusedFragments_retained_are_used (doc : Document) (d : Definition) (n : String)
    (hd : d ∈ (removeUnusedFragments doc).definitions) (hn : d.fragName? = some n) :
    n ∈ usedFragments (removeUnusedFragments doc).definitions := by
  exact mem_used_of_mem_fixpoint hd hn

theorem removeUnusedFragments_retained_are_used_witness :
    "A" ∈ usedFragments (removeUnusedFragments cyclicFragDoc).definitions := by
  refine removeUnusedFragments_retained_are_used cyclicFragDoc
    (.fragment "A" "T" none [.fragmentSpread "A" none]) "A" ?_ rfl
  show _ ∈ pruneAux cyclicFragDoc.definitions
  rw [pruneAux_cyclicFragDoc]
  simp [cyclicFragDoc]

/-! ## `removeSourceLocations`

The source is a generic JavaScript tree walk over the runtime value of the
document: `if (document.loc) delete document.loc;` then, for every key, an
array value gets `value.forEach(val => removeSourceLocations(val))` and a
truthy object value gets a recursive call.  We model the dynamic JavaScript
values it can meet: `null`, booleans, numbers, strings, arrays and objects
(an object is an ordered association list of distinct keys).  Reading `.loc`
of `null` throws a `TypeError`, so the walk is partial (`Option`); property
access on primitives yields `undefined` (falsy) and `Object.keys` of a
primitive holds no object-valued entries, so primitives pass through
unharmed. -/

inductive JsValue where
  | jnull
  | jbool (b : Bool)
  | jnum (n : Int)
  | jstr (s : String)
  | jarr (elems : List JsValue)
  | jobj (fields : List (String × JsValue))
  deriving Repr

/-- JavaScript truthiness of a value (`if (document.loc)` and the
`value && typeof value === "object"` guard). -/
def truthy : JsValue → Bool
  | .jnull => false
  | .jbool b => b
  | .jnum n => n != 0
  | .jstr s => s != ""
  | .jarr _ => true
  | .jobj _ => true

/-- Property lookup on an object (first binding wins, like JavaScript where
keys are unique). -/
def lookupField : List (String × JsValue) → String → Option JsValue
  | [], _ => none
  | (k', v) :: rest, k => if k' == k then some v else lookupField rest k

/-- Whether `document.loc` is truthy, i.e. the `delete` branch is taken
(absent property reads as `undefined`, which is falsy). -/
def locTruthy (fields : List (String × JsValue)) : Bool :=
  match lookupField fields "loc" with
  | some v => truthy v
  | none => false

mutual

/-- Embeds `removeSourceLocations(document)` called on an arbitrary value: delete a
truthy `loc`, then walk `Object.keys`.  `none` models the `TypeError` thrown
by `document.loc` when the value is `null`. -/
def removeSourceLocations : JsValue → Option JsValue
  | .jnull => none
  | .jbool b => some (.jbool b)
  | .jnum n => some (.jnum n)
  | .jstr s => some (.jstr s)
  | .jarr es =>
    match rslOwnValues es with
    | some es2 => some (.jarr es2)
    | none => none
  | .jobj fs =>
    match rslFields (locTruthy fs) fs with
    | some fs2 => some (.jobj fs2)
    | none => none

/-- Processing of one own-property value `value = document[key]`:
`Array.isArray(value)` first (recurse into every element, unguarded), then
the `value && typeof value === "object"` guard (recurse into objects;
`null`, booleans, numbers and strings are skipped). -/
def rslValue : JsValue → Option JsValue
  | .jarr es =>
    match rslForEach es with
    | some es2 => some (.jarr es2)
    | none => none
  | .jobj fs => removeSourceLocations (.jobj fs)
  | v => some v

/-- The own-property values of an array the walk was called on directly
(its keys are its indices, so each element goes through the guards). -/
def rslOwnValues : List JsValue → Option (List JsValue)
  | [] => some []
  | v :: vs =>
    match rslValue v, rslOwnValues vs with
    | some a, some b => some (a :: b)
    | _, _ => none

/-- Embeds `value.forEach(val => removeSourceLocations(val))`: the recursive call on
each element is unguarded, so a `null` element throws. -/
def rslForEach : List JsValue → Option (List JsValue)
  | [] => some []
  | v :: vs =>
    match removeSourceLocations v, rslForEach vs with
    | some a, some b => some (a :: b)
    | _, _ => none

/-- The `Object.keys` loop of an object: when `drop` is set the `loc`
property was deleted (so it is not iterated); the other values go through the
guards. -/
def rslFields : Bool → List (String × JsValue) → Option (List (String × JsValue))
  | _, [] => some []
  | drop, (k, v) :: fs =>
    if drop && k == "loc" then rslFields drop fs
    else
      match rslValue v, rslFields drop fs with
      | some a, some b => some ((k, a) :: b)
      | _, _ => none

end

mutual

/-- No node of the tree carries a `loc` attribute, at any depth. -/
def noLoc : JsValue → Bool
  | .jarr es => noLocList es
  | .jobj fs => noLocFields fs
  | _ => true

def noLocList : List JsValue → Bool
  | [] => true
  | v :: vs => noLoc v && noLocList vs

def noLocFields : List (String × JsValue) → Bool
  | [] => true
  | (k, v) :: fs => !(k == "loc") && noLoc v && noLocFields fs

end

mutual

/-- The shape of a GraphQL document tree as the walk meets it: no `null`
anywhere (AST nodes, node lists and scalar attributes are never `null`), and
any `loc` attribute's value is truthy (a `Location` object). -/
def docTree : JsValue → Bool
  | .jnull => false
  | .jbool _ => true
  | .jnum _ => true
  | .jstr _ => true
  | .jarr es => docTreeList es
  | .jobj fs => docTreeFields fs

def docTreeList : List JsValue → Bool
  | [] => true
  | v :: vs => docTree v && docTreeList vs

def docTreeFields : List (String × JsValue) → Bool
  | [] => true
  | (k, v) :: fs => (!(k == "loc") || truthy v) && docTree v && docTreeFields fs

end

/-- Whether an object has a `loc` property at all. -/
def hasLocField (fields : List (String × JsValue)) : Bool :=
  fields.any (fun kv => kv.1 == "loc")

theorem locTruthy_of_hasLoc : ∀ fs, docTreeFields fs = true → hasLocField fs = true →
    locTruthy fs = true
  | [], _, hloc => by simp [hasLocField] at hloc
  | (k, v) :: fs, hgood, hloc => by
    rw [docTreeFields] at hgood
    simp only [Bool.and_eq_true] at hgood
    obtain ⟨⟨hkv, hv⟩, hfs⟩ := hgood
    cases hk : (k == "loc") with
    | true =>
      have htr : truthy v = true := by simpa [hk] using hkv
      simp [locTruthy, lookupField, hk, htr]
    | false =>
      have hloc2 : hasLocField fs = true := by
        rw [hasLocField, List.any_cons] at hloc
        simpa [hasLocField, hk] using hloc
      have := locTruthy_of_hasLoc fs hfs hloc2
      simpa [locTruthy, lookupField, hk] using this

mutual

theorem removeSourceLocations_good : ∀ v : JsValue, docTree v = true →
    ∃ v', removeSourceLocations v = some v' ∧ noLoc v' = true
  | .jnull, h => by simp [docTree] at h
  | .jbool b, _ => ⟨.jbool b, by simp [removeSourceLocations], by simp [noLoc]⟩
  | .jnum n, _ => ⟨.jnum n, by simp [removeSourceLocations], by simp [noLoc]⟩
  | .jstr s, _ => ⟨.jstr s, by simp [removeSourceLocations], by simp [noLoc]⟩
  | .jarr es, h => by
    obtain ⟨es2, h1, h2⟩ := rslOwnValues_good es (by simpa [docTree] using h)
    exact ⟨.jarr es2, by simp [removeSourceLocations, h1], by simp [noLoc, h2]⟩
  | .jobj fs, h => by
    have hgood : docTreeFields fs = true := by simpa [docTree] using h
    have hside : locTruthy fs = true ∨ hasLocField fs = false := by
      by_cases hl : hasLocField fs = true
      · exact Or.inl (locTruthy_of_hasLoc fs hgood hl)
      · exact Or.inr (by simpa using hl)
    obtain ⟨fs2, h1, h2⟩ := rslFields_good (locTruthy fs) fs hgood
      (by
        rcases hside with hl | hl
        · exact Or.inl hl
        · exact Or.inr hl)
    exact ⟨.jobj fs2, by simp [removeSourceLocations, h1], by simp [noLoc, h2]⟩

theorem rslValue_good : ∀ v : JsValue, docTree v = true →
    ∃ v', rslValue v = some v' ∧ noLoc v' = true
  | .jnull, h => by simp [docTree] at h
  | .jbool b, _ => ⟨.jbool b, by simp [rslValue], by simp [noLoc]⟩
  | .jnum n, _ => ⟨.jnum n, by simp [rslValue], by simp [noLoc]⟩
  | .jstr s, _ => ⟨.jstr s, by simp [rslValue], by simp [noLoc]⟩
  | .jarr es, h => by
    obtain ⟨es2, h1, h2⟩ := rslForEach_good es (by simpa [docTree] using h)
    exact ⟨.jarr es2, by simp [rslValue, h1], by simp [noLoc, h2]⟩
  | .jobj fs, h => by
    obtain ⟨v', h1, h2⟩ := removeSourceLocations_good (.jobj fs) h
    refine ⟨v', ?_, h2⟩
    rw [rslValue]
    exact h1

theorem rslOwnValues_good : ∀ vs : List JsValue, docTreeList vs = true →
    ∃ vs', rslOwnValues vs = some vs' ∧ noLocList vs' = true
  | [], _ => ⟨[], by simp [rslOwnValues], by simp [noLocList]⟩
  | v :: vs, h => by
    have h' : docTree v = true ∧ docTreeList vs = true := by
      simpa [docTreeList] using h
    obtain ⟨a, ha1, ha2⟩ := rslValue_good v h'.1
    obtain ⟨b, hb1, hb2⟩ := rslOwnValues_good vs h'.2
    exact ⟨a :: b, by simp [rslOwnValues, ha1, hb1], by simp [noLocList, ha2, hb2]⟩

theorem rslForEach_good : ∀ vs : List JsValue, docTreeList vs = true →
    ∃ vs', rslForEach vs = some vs' ∧ noLocList vs' = true
  | [], _ => ⟨[], by simp [rslForEach], by simp [noLocList]⟩
  | v :: vs, h => by
    have h' : docTree v = true ∧ docTreeList vs = true := by
      simpa [docTreeList] using h
    obtain ⟨a, ha1, ha2⟩ := removeSourceLocations_good v h'.1
    obtain ⟨b, hb1, hb2⟩ := rslForEach_good vs h'.2
    exact ⟨a :: b, by simp [rslForEach, ha1, hb1], by simp [noLocList, ha2, hb2]⟩

theorem rslFields_good : ∀ (drop : Bool) (fs : List (String × JsValue)),
    docTreeFields fs = true → (drop = true ∨ hasLocField fs = false) →
    ∃ fs', rslFields drop fs = some fs' ∧ noLocFields fs' = true
  | _, [], _, _ => ⟨[], by simp [rslFields], by simp [noLocFields]⟩
  | drop, (k, v) :: fs, h, hside => by
    rw [docTreeFields] at h
    simp only [Bool.and_eq_true] at h
    obtain ⟨⟨hkv, hv⟩, hfs⟩ := h
    have hside' : drop = true ∨ hasLocField fs = false := by
      rcases hside with hd | hl
      · exact Or.inl hd
      · refine Or.inr ?_
        rw [hasLocField, List.any_cons] at hl
        have hl2 := (Bool.or_eq_false_iff.mp hl).2
        simpa [hasLocField] using hl2
    by_cases hk : (drop && k == "loc") = true
    · obtain ⟨b, hb1, hb2⟩ := rslFields_good drop fs hfs hside'
      exact ⟨b, by simp [rslFields, hk, hb1], hb2⟩
    · have hknotloc : (k == "loc") = false := by
        rcases hside with hd | hl
        · simpa [hd] using hk
        · rw [hasLocField, List.any_cons] at hl
          exact (Bool.or_eq_false_iff.mp hl).1
      obtain ⟨a, ha1, ha2⟩ := rslValue_good v hv
      obtain ⟨b, hb1, hb2⟩ := rslFields_good drop fs hfs hside'
      exact ⟨(k, a) :: b, by simp [rslFields, hk, ha1, hb1],
        by simp [noLocFields, hknotloc, ha2, hb2]⟩

end

/-- C6: on every (acyclic) document tree — no `null` values, `loc`
attributes carrying (truthy) location objects — the generic
`removeSourceLocations` walk terminates without error (it does not throw on
primitive or leaf values) and afterwards no node reachable from the root, at
any depth and regardless of nesting shape, carries a `loc` attribute. -/
theorem removeSourceLocations_strips_all_locations (v : JsValue) (h : docTree v = true) :
    ∃ v', removeSourceLocations v = some v' ∧ noLoc v' = true :=
  removeSourceLocations_good v h

/-- A small concrete document tree exercising C6: nested objects, an array,
primitive leaves and `loc` attributes at two depths. -/
def sampleTree : JsValue :=
  .jobj [("kind", .jstr "Document"),
    ("loc", .jobj [("start", .jnum 0), ("end", .jnum 7)]),
    ("definitions", .jarr [.jobj [("kind", .jstr "OperationDefinition"),
      ("loc", .jobj [("start", .jnum 0)]),
      ("name", .jstr "Q"), ("selections", .jarr [])]])]

theorem sampleTree_docTree : docTree sampleTree = true := by
  simp [sampleTree, docTree, docTreeList, docTreeFields, truthy]

theorem removeSourceLocations_strips_all_locations_witness :
    docTree sampleTree = true
    ∧ ∃ v', removeSourceLocations sampleTree = some v' ∧ noLoc v' = true :=
  ⟨sampleTree_docTree,
    removeSourceLocations_strips_all_locations sampleTree sampleTree_docTree⟩

/-! ## `extractImports`: line scanning and import-path extraction

`source.split(/(\r\n|\r|\n)/)` splits on the three line separators keeping
the captured separators as list elements (a separator element starts with a
control character, never `#`, so the scan skips it).  A line is inspected
only if `line[0] === "#"`; the text after `#` is split on single spaces;
`comment[0]` must be exactly `"import"`; `comment[1]` (undefined or empty
string are falsy) is matched against the greedy regex `^["'](.+)["']`. -/

/-- Embeds `source.split(/(\r\n|\r|\n)/)`: pieces and captured separators, in
order. -/
def splitLinesAux : List Char → List Char → List String
  | cur, [] => [String.mk cur.reverse]
  | cur, '\r' :: '\n' :: rest => String.mk cur.reverse :: "\r\n" :: splitLinesAux [] rest
  | cur, '\r' :: rest => String.mk cur.reverse :: "\r" :: splitLinesAux [] rest
  | cur, '\n' :: rest => String.mk cur.reverse :: "\n" :: splitLinesAux [] rest
  | cur, c :: rest => splitLinesAux (c :: cur) rest

def splitLines (source : String) : List String :=
  splitLinesAux [] source.toList

/-- Embeds `String.prototype.split(" ")`: split on every single space character. -/
def splitOnSpaceAux : List Char → List Char → List String
  | cur, [] => [String.mk cur.reverse]
  | cur, c :: rest =>
    if c = ' ' then String.mk cur.reverse :: splitOnSpaceAux [] rest
    else splitOnSpaceAux (c :: cur) rest

def splitOnSpace (s : String) : List String :=
  splitOnSpaceAux [] s.toList

def isQuote (c : Char) : Bool :=
  c == '"' || c == '\''

/-- Index of the last quote character of a list, if any. -/
def lastQuoteIdx : List Char → Option Nat
  | [] => none
  | c :: rest =>
    match lastQuoteIdx rest with
    | some j => some (j + 1)
    | none => if isQuote c then some 0 else none

/-- Embeds the capture group of `tok.match(/^["'](.+)["']/)`: the token must begin with a
quote character; the greedy `(.+)` runs to the last later quote character,
which must leave the capture non-empty.  Trailing characters after that
closing quote are allowed and the two quotes need not match. -/
def matchQuotedPath (tok : String) : Option String :=
  match tok.toList with
  | [] => none
  | c :: rest =>
    if isQuote c then
      match lastQuoteIdx rest with
      | some j => if 1 ≤ j then some (String.mk (rest.take j)) else none
      | none => none
    else none

/-- How `extractImports` treats one element of the split source. -/
inductive LineScan where
  | notDirective
  | malformed
  | importPath (p : String)
  deriving Repr, DecidableEq

/-- One iteration of the `lines.forEach` scan: skip unless `line[0] === "#"`
and the first space-token after `#` is exactly `import`; then `comment[1]`
must be a non-falsy token matching the quote regex, else the scan throws. -/
def lineImportScan (line : String) : LineScan :=
  match line.toList with
  | [] => .notDirective
  | c :: _ =>
    if c != '#' then .notDirective
    else
      match splitOnSpace (line.drop 1) with
      | [] => .notDirective
      | tok0 :: restToks =>
        if tok0 != "import" then .notDirective
        else
          match restToks with
          | [] => .malformed
          | tok1 :: _ =>
            if tok1 = "" then .malformed
            else
              match matchQuotedPath tok1 with
              | none => .malformed
              | some p => .importPath p

/-- Scanning all lines in order: the import paths pushed before the scan hit
a malformed directive, and whether it did (the `forEach` throws at the first
malformed line, so later lines are not inspected). -/
def scanLines : List String → List String × Bool
  | [] => ([], false)
  | l :: ls =>
    match lineImportScan l with
    | .notDirective => scanLines ls
    | .malformed => ([], true)
    | .importPath p =>
      let rest := scanLines ls
      (p :: rest.1, rest.2)

/-- The value-level outcome of `extractImports`' scan over a source: the list
of import paths in line order, or the `MalformedImportDirective` error. -/
def extractImportsSpecs (source : String) : Except String (List String) :=
  let scan := scanLines (splitLines source)
  if scan.2 then .error "#import statement must specify a quoted file path"
  else .ok scan.1

/-! ## `findSchemaFile`: upward directory search

Directories and file paths are lists of segments from the filesystem root;
`join(dir, name)` appends a segment and `dirname` drops the last one, with
`dirname(root) = root` (the loop's termination test `parent === context`). -/

def renderPath (p : List String) : String :=
  String.intercalate "/" p

/-- The message of the `SchemaNotFound` error, exactly as interpolated in the
source (including its unbalanced quoting): it names the configured schema
file name and the original starting directory. -/
def schemaNotFoundMessage (schemaPath : String) (context : List String) : String :=
  "Could not find schema file '" ++ schemaPath ++ " from any parent of '"
    ++ renderPath context ++ "'"

/-- Embeds `findSchemaFile(loader, context, schemaPath)`: try
`join(currentContext, schemaPath)` (a failing `stat` is caught and treated as
no file), then move to the parent; throw when the parent equals the current
directory (the filesystem root was reached). -/
def findSchemaFile (isFile : List String → Bool) (context : List String) :
    List String → String → Except String (List String)
  | currentContext, schemaPath =>
    if isFile (currentContext ++ [schemaPath]) then .ok (currentContext ++ [schemaPath])
    else
      if currentContext.dropLast = currentContext then
        .error (schemaNotFoundMessage schemaPath context)
      else findSchemaFile isFile context currentContext.dropLast schemaPath
termination_by currentContext _ => currentContext.length
decreasing_by
  rename_i hne
  have hnil : currentContext ≠ [] := by
    intro h
    exact hne (by simp [h])
  have := List.length_dropLast currentContext
  cases currentContext with
  | nil => exact absurd rfl hnil
  | cons a l => simp [List.length_dropLast]

/-- The chain of directories the search visits: the start, then each
successive parent, ending with the root `[]`. -/
def ancestors : List String → List (List String)
  | d => d :: (if h : d = [] then [] else ancestors d.dropLast)
termination_by d => d.length
decreasing_by
  have hpos : 0 < d.length := List.length_pos.mpr h
  simp only [List.length_dropLast]
  exact Nat.sub_lt hpos Nat.one_pos

theorem dropLast_eq_self_iff (l : List String) : l.dropLast = l ↔ l = [] := by
  constructor
  · intro h
    by_contra hne
    have hpos : 0 < l.length := List.length_pos.mpr hne
    have hlen := congrArg List.length h
    rw [List.length_dropLast] at hlen
    omega
  · intro h
    subst h
    rfl

/-- C8: `findSchemaFile` examines the starting directory and then each
successive parent (the `ancestors` chain, which ends at the filesystem
root), returns the joined path of the first directory level holding a
regular file of the configured name, and otherwise — exactly when no
ancestor up to the root has the file — fails with the `SchemaNotFound`
message naming the schema file name and the original starting directory. -/
theorem findSchemaFile_spec (isFile : List String → Bool) (context : List String)
    (start : List String) (schemaPath : String) :
    findSchemaFile isFile context start schemaPath =
      match (ancestors start).find? (fun dir => isFile (dir ++ [schemaPath])) with
      | some dir => .ok (dir ++ [schemaPath])
      | none => .error (schemaNotFoundMessage schemaPath context) := by
  induction start, schemaPath using findSchemaFile.induct isFile context with
  | case1 start schemaPath hfile =>
    rw [findSchemaFile, if_pos hfile, ancestors]
    rw [List.find?_cons_of_pos _ (by simpa using hfile)]
  | case2 start schemaPath hfile hroot =>
    have hnil : start = [] := (dropLast_eq_self_iff start).mp hroot
    subst hnil
    rw [findSchemaFile, if_neg (by simpa using hfile), if_pos hroot, ancestors]
    rw [List.find?_cons_of_neg _ (by simpa using hfile)]
    simp
  | case3 start schemaPath hfile hroot ih =>
    have hnil : start ≠ [] := by
      intro h
      subst h
      exact hroot rfl
    rw [findSchemaFile, if_neg (by simpa using hfile), if_neg hroot, ancestors]
    simp only [dif_neg hnil]
    rw [List.find?_cons_of_neg _ (by simpa using hfile)]
    exact ih

/-! ## C2: which lines are directives, and which directives are malformed -/

/-- The spec's reading of a well-formed directive remainder: everything after
`#import ` is a double- or single-quoted (non-empty) path. -/
def remainderIsQuotedPath (rem : String) : Prop :=
  ∃ p : String, p ≠ "" ∧ (rem = "\"" ++ p ++ "\"" ∨ rem = "'" ++ p ++ "'")

/-- What the code's regex `^["'](.+)["']` actually accepts of `comment[1]`:
an opening quote, at least one character, and a later quote character —
mismatched quotes and trailing garbage are fine, spaces in the path are not
(they split the token). -/
def QuotedTokenShape (tok : String) : Prop :=
  ∃ (q1 q2 : Char) (mid post : List Char),
    tok.toList = q1 :: (mid ++ q2 :: post)
    ∧ isQuote q1 = true ∧ isQuote q2 = true ∧ mid ≠ []

/-- The condition under which `extractImports` treats a line as an import
directive: first character `#` and first space-token of the rest exactly
`import`. -/
def ImportDirectiveShape (line : String) : Prop :=
  line.toList.head? = some '#' ∧ (splitOnSpace (line.drop 1)).headD "" = "import"

/-- Extracts `comment[1]`: the second space-token of the text after `#`, with a
missing token read as the (falsy) empty string. -/
def secondToken (line : String) : String :=
  ((splitOnSpace (line.drop 1)).drop 1).headD ""

theorem lastQuoteIdx_none {cs : List Char} (h : lastQuoteIdx cs = none) :
    ∀ c ∈ cs, isQuote c = false := by
  induction cs with
  | nil => simp
  | cons c rest ih =>
    rw [lastQuoteIdx] at h
    intro x hx
    cases hlast : lastQuoteIdx rest with
    | some j => simp [hlast] at h
    | none =>
      rw [hlast] at h
      by_cases hq : isQuote c = true
      · simp [hq] at h
      · rcases List.mem_cons.mp hx with rfl | hmem
        · simpa using hq
        · exact ih hlast x hmem

theorem lastQuoteIdx_some {cs : List Char} {j : Nat} (h : lastQuoteIdx cs = some j) :
    ∃ (pre post : List Char) (q : Char),
      cs = pre ++ q :: post ∧ pre.length = j ∧ isQuote q = true := by
  induction cs generalizing j with
  | nil => simp [lastQuoteIdx] at h
  | cons c rest ih =>
    rw [lastQuoteIdx] at h
    cases hlast : lastQuoteIdx rest with
    | some j' =>
      rw [hlast] at h
      obtain rfl : j' + 1 = j := by simpa using h
      obtain ⟨pre, post, q, heq, hlen, hq⟩ := ih hlast
      exact ⟨c :: pre, post, q, by simp [heq], by simp [hlen], hq⟩
    | none =>
      rw [hlast] at h
      by_cases hq : isQuote c = true
      · simp only [hq, if_true] at h
        obtain rfl : 0 = j := by simpa using h
        exact ⟨[], rest, c, rfl, rfl, hq⟩
      · simp [hq] at h

theorem lastQuoteIdx_of_quote_at (pre post : List Char) (q : Char)
    (hq : isQuote q = true) :
    ∃ j, lastQuoteIdx (pre ++ q :: post) = some j ∧ pre.length ≤ j := by
  induction pre with
  | nil =>
    rw [List.nil_append, lastQuoteIdx]
    cases hlast : lastQuoteIdx post with
    | some j => exact ⟨j + 1, rfl, Nat.zero_le _⟩
    | none => exact ⟨0, by simp [hq], Nat.le_refl 0⟩
  | cons c pre ih =>
    obtain ⟨j, hj, hle⟩ := ih
    refine ⟨j + 1, ?_, by simpa using Nat.succ_le_succ hle⟩
    rw [List.cons_append, lastQuoteIdx, hj]

theorem matchQuotedPath_isSome_iff (tok : String) :
    (∃ p, matchQuotedPath tok = some p) ↔ QuotedTokenShape tok := by
  constructor
  · rintro ⟨p, hp⟩
    rw [matchQuotedPath] at hp
    cases htl : tok.toList with
    | nil => rw [htl] at hp; simp at hp
    | cons c rest =>
      rw [htl] at hp
      by_cases hq : isQuote c = true
      · simp only [hq, if_true] at hp
        cases hlast : lastQuoteIdx rest with
        | none => rw [hlast] at hp; simp at hp
        | some j =>
          rw [hlast] at hp
          by_cases hj : 1 ≤ j
          · obtain ⟨pre, post, q, heq, hlen, hq2⟩ := lastQuoteIdx_some hlast
            refine ⟨c, q, pre, post, by rw [htl, heq], hq, hq2, ?_⟩
            intro hnil
            rw [hnil] at hlen
            simp at hlen
            omega
          · simp [hj] at hp
      · simp [hq] at hp
  · rintro ⟨q1, q2, mid, post, htl, hq1, hq2, hmid⟩
    obtain ⟨j, hj, hle⟩ := lastQuoteIdx_of_quote_at mid post q2 hq2
    have h1 : 1 ≤ j := by
      have : 0 < mid.length := List.length_pos.mpr hmid
      omega
    refine ⟨String.mk ((mid ++ q2 :: post).take j), ?_⟩
    rw [matchQuotedPath, htl]
    simp [hq1, hj, h1]

theorem splitOnSpaceAux_ne_nil (cur cs) : splitOnSpaceAux cur cs ≠ [] := by
  induction cs generalizing cur with
  | nil => simp [splitOnSpaceAux]
  | cons c rest ih =>
    rw [splitOnSpaceAux]
    by_cases hc : c = ' '
    · simp [hc]
    · simp only [hc, if_false]
      exact ih (c :: cur)

/-- C2 counterexample: the line `#import "a b"` is an import directive whose
remainder is a properly double-quoted path, yet the scan reports it
malformed (the regex only sees the space-split token `"a`), so a properly
quoted path is not always accepted. -/
theorem quoted_path_with_space_rejected :
    ("#import \"a b\"" : String) = "#import " ++ "\"a b\""
    ∧ remainderIsQuotedPath "\"a b\""
    ∧ lineImportScan "#import \"a b\"" = .malformed
    ∧ extractImportsSpecs "#import \"a b\""
        = .error "#import statement must specify a quoted file path" :=
  ⟨rfl, ⟨"a b", by decide, Or.inl (by decide)⟩, by decide, rfl⟩

theorem lineImportScan_notDirective_iff (line : String) :
    lineImportScan line = .notDirective ↔ ¬ ImportDirectiveShape line := by
  rw [lineImportScan]
  cases htl : line.toList with
  | nil =>
    have hnot : ¬ ImportDirectiveShape line := by
      rintro ⟨h1, _⟩
      rw [htl] at h1
      exact Option.noConfusion h1
    simp [hnot]
  | cons c cs =>
    by_cases hc : c = '#'
    · subst hc
      simp only [bne_self_eq_false, Bool.false_eq_true, if_false]
      cases hsplit : splitOnSpace (line.drop 1) with
      | nil => exact absurd hsplit (splitOnSpaceAux_ne_nil [] _)
      | cons tok0 restToks =>
        by_cases h0 : tok0 = "import"
        · subst h0
          have hshape : ImportDirectiveShape line :=
            ⟨by rw [htl]; rfl, by rw [hsplit]; rfl⟩
          simp only [bne_self_eq_false, Bool.false_eq_true, if_false]
          constructor
          · intro hscan
            exfalso
            cases restToks with
            | nil => simp at hscan
            | cons tok1 rest =>
              by_cases h1 : tok1 = ""
              · simp [h1] at hscan
              · simp only [h1, if_false] at hscan
                cases hm : matchQuotedPath tok1 <;> simp [hm, h1] at hscan
          · intro hnot
            exact absurd hshape hnot
        · have hnot : ¬ ImportDirectiveShape line := by
            rintro ⟨_, h2⟩
            rw [hsplit] at h2
            simp at h2
            exact h0 h2
          have hne : (tok0 != "import") = true := by simpa using h0
          simp [hne, hnot]
    · have hnot : ¬ ImportDirectiveShape line := by
        rintro ⟨h1, _⟩
        rw [htl] at h1
        simp at h1
        exact hc h1
      have hne : (c != '#') = true := by simpa using hc
      simp [hne, hnot]

theorem lineImportScan_malformed_iff (line : String) (hdir : ImportDirectiveShape line) :
    lineImportScan line = .malformed ↔ ¬ QuotedTokenShape (secondToken line) := by
  obtain ⟨h1, h2⟩ := hdir
  rw [lineImportScan]
  cases htl : line.toList with
  | nil => rw [htl] at h1; exact absurd h1 (by simp)
  | cons c cs =>
    rw [htl] at h1
    obtain rfl : c = '#' := by simpa using h1
    simp only [bne_self_eq_false, Bool.false_eq_true, if_false]
    cases hsplit : splitOnSpace (line.drop 1) with
    | nil => exact absurd hsplit (splitOnSpaceAux_ne_nil [] _)
    | cons tok0 restToks =>
      rw [hsplit] at h2
      obtain rfl : tok0 = "import" := by simpa using h2
      simp only [bne_self_eq_false, Bool.false_eq_true, if_false]
      have hsec : secondToken line = restToks.headD "" := by
        rw [secondToken, hsplit]
        simp
      cases restToks with
      | nil =>
        rw [hsec]
        simp only [List.headD_nil]
        constructor
        · intro _
          rintro ⟨q1, q2, mid, post, habs, _, _, _⟩
          simp at habs
        · intro _
          trivial
      | cons tok1 rest =>
        rw [hsec]
        simp only [List.headD_cons]
        by_cases h1' : tok1 = ""
        · subst h1'
          simp only [if_pos rfl]
          constructor
          · intro _
            rintro ⟨q1, q2, mid, post, habs, _, _, _⟩
            simp at habs
          · intro _
            rfl
        · simp only [h1', if_false]
          cases hm : matchQuotedPath tok1 with
          | none =>
            simp only [hm]
            constructor
            · intro _
              intro hshape
              obtain ⟨p, hp⟩ := (matchQuotedPath_isSome_iff tok1).mpr hshape
              rw [hm] at hp
              exact Option.noConfusion hp
            · intro _
              trivial
          | some p =>
            simp only [hm]
            constructor
            · intro habs
              exact absurd habs (by simp)
            · intro hnot
              exact absurd ((matchQuotedPath_isSome_iff tok1).mp ⟨p, hm⟩) hnot

/-- C2 amended: a line is treated as an import directive exactly when its
first character is `#` and the first space-token after `#` is exactly
`import`; for such a line the scan fails with the malformed-directive error
exactly when the second space-token does not consist of an opening quote, at
least one character, and a later closing quote character — so paths with
spaces are rejected even when properly quoted, while mismatched quotes and
trailing characters are accepted. -/
theorem lineImportScan_spec (line : String) :
    (lineImportScan line = .notDirective ↔ ¬ ImportDirectiveShape line)
    ∧ (ImportDirectiveShape line →
        (lineImportScan line = .malformed ↔ ¬ QuotedTokenShape (secondToken line))) :=
  ⟨lineImportScan_notDirective_iff line, lineImportScan_malformed_iff line⟩

theorem lineImportScan_spec_witness :
    lineImportScan "#import 'x'" ≠ LineScan.notDirective
    ∧ lineImportScan "#import 'x'" ≠ LineScan.malformed := by
  have h := lineImportScan_spec "#import 'x'"
  have hshape : ImportDirectiveShape "#import 'x'" := ⟨by decide, by decide⟩
  have hquoted : QuotedTokenShape (secondToken "#import 'x'") := by
    refine ⟨'\'', '\'', ['x'], [], ?_, rfl, rfl, by decide⟩
    decide
  refine ⟨fun habs => ?_, fun habs => ?_⟩
  · exact (h.1.mp habs) hshape
  · exact ((h.2 hshape).mp habs) hquoted

/-! ## C3: the base directory passed to the Path-Resolution Port

`extractImports` always calls `loader.resolve(loader.context, filePath, …)`:
`loader.context` is the directory of the root resource and never changes
during the recursion, so directives found inside transitively imported files
are also resolved against it.  `resolveCalls` is the code's trace of
`loader.resolve` invocations during `loadSource`'s recursive expansion,
instrumented with the ghost `containingDir` — the directory of the file
whose source is being scanned (for the root file, `loader.context`; for a
resolved import, the `dirname` of its resolved path).  Resolution and
reading are total ports here (the trace of the success path); a malformed
directive stops the scan of its file after the earlier directives' resolve
calls were already issued, which is exactly what the synchronous promise
executors in the `forEach` do. -/

structure ResolveCall where
  containingDir : List String
  baseDir : List String
  spec : String
  deriving Repr, DecidableEq

def resolveCalls (parseOk : String → Bool) (resolve : List String → String → List String)
    (readFile : List String → String) (context : List String) :
    Nat → List String → String → List ResolveCall
  | 0, _, _ => []
  | fuel + 1, ghostDir, source =>
    if parseOk source then
      if (scanLines (splitLines source)).2 then
        (scanLines (splitLines source)).1.map (fun spec => ⟨ghostDir, context, spec⟩)
      else
        (scanLines (splitLines source)).1.map (fun spec => ⟨ghostDir, context, spec⟩)
          ++ ((scanLines (splitLines source)).1.map (fun spec =>
              resolveCalls parseOk resolve readFile context fuel
                (resolve context spec).dropLast (readFile (resolve context spec)))).flatten
    else []

def cexParseOk : String → Bool := fun _ => true

def cexResolve : List String → String → List String := fun _ spec =>
  if spec == "a" then ["lib", "a.graphql"] else ["lib", "b.graphql"]

def cexRead : List String → String := fun p =>
  if p == ["lib", "a.graphql"] then "#import 'b'" else ""

/-- C3 counterexample: the root file (context `root`) imports `a`, which
resolves into the directory `lib`; the imported file itself contains
`#import 'b'`, and that nested directive is resolved with base directory
`root` — the root context — although the file containing it lives in `lib`.
So the quoted path is not resolved against the directory of the file that
contains the directive. -/
theorem extractImports_resolve_ignores_containing_dir :
    resolveCalls cexParseOk cexResolve cexRead ["root"] 2 ["root"] "#import 'a'"
      = [⟨["root"], ["root"], "a"⟩, ⟨["lib"], ["root"], "b"⟩]
    ∧ ∃ c ∈ resolveCalls cexParseOk cexResolve cexRead ["root"] 2 ["root"] "#import 'a'",
        c.baseDir ≠ c.containingDir :=
  ⟨by decide, ⟨⟨["lib"], ["root"], "b"⟩, by decide, by decide⟩⟩

/-- C3 amended: during recursive import resolution every call to the
Path-Resolution Port passes `loader.context` — the root file's directory —
as the base directory, including for directives found inside transitively
imported files (whose own directory is recorded as `containingDir`). -/
theorem resolveCalls_baseDir (parseOk : String → Bool)
    (resolve : List String → String → List String) (readFile : List String → String)
    (context : List String) (fuel : Nat) (ghostDir : List String) (source : String)
    (c : ResolveCall)
    (hc : c ∈ resolveCalls parseOk resolve readFile context fuel ghostDir source) :
    c.baseDir = context := by
  induction fuel generalizing ghostDir source with
  | zero => simp [resolveCalls] at hc
  | succ fuel ih =>
    rw [resolveCalls] at hc
    by_cases hp : parseOk source = true
    · rw [if_pos hp] at hc
      by_cases hbad : (scanLines (splitLines source)).2 = true
      · rw [if_pos hbad] at hc
        obtain ⟨spec, hspec, rfl⟩ := List.mem_map.mp hc
        rfl
      · rw [if_neg hbad] at hc
        rcases List.mem_append.mp hc with h1 | h2
        · obtain ⟨spec, hspec, rfl⟩ := List.mem_map.mp h1
          rfl
        · obtain ⟨l, hl, hcl⟩ := List.mem_flatten.mp h2
          obtain ⟨spec, hspec, rfl⟩ := List.mem_map.mp hl
          exact ih _ _ hcl
    · rw [if_neg hp] at hc
      simp at hc

theorem resolveCalls_baseDir_witness :
    (⟨["lib"], ["root"], "b"⟩ : ResolveCall).baseDir = ["root"] :=
  resolveCalls_baseDir cexParseOk cexResolve cexRead ["root"] 2 ["root"] "#import 'a'"
    ⟨["lib"], ["root"], "b"⟩ (by decide)

/-! ## The `loader` entry point

The host capabilities the loader consumes — file system, path resolution and
the external GraphQL engine (`parse`, `print`, `validate`,
`buildClientSchema` composed with `JSON.parse`) — are abstracted as a record
of ports over an opaque `Schema` type.  `JSON.stringify` on the two possible
payloads is a port as well.  `loader.addDependency` and `this.cacheable()`
are side-effect-only and carry no value information. -/

/-- The configuration as read by `loaderUtils.getOptions`: `schema` is
`string | undefined` (the empty string is falsy, like `undefined`, for the
`!options.schema` test), the two flags collapse their `undefined` to
`false`, and `output` is `string | undefined`. -/
structure RawOptions where
  schema : Option String := none
  validate : Bool := false
  output : Option String := none
  removeUnusedFragments : Bool := false

structure Ports (Schema : Type) where
  rawOptions : RawOptions
  context : List String
  isFile : List String → Bool
  readFile : List String → Except String String
  resolve : List String → String → Except String (List String)
  parse : String → Except String Document
  buildSchema : String → Except String Schema
  validate : Schema → Document → List String
  printDoc : Document → String
  stringifyString : String → String
  stringifyDocument : Document → String

/-- The result of `loadOptions`. -/
structure LoaderOptions (Schema : Type) where
  schema : Option Schema
  output : String
  removeUnusedFragments : Bool

/-- Embeds `loadOptions(loader)`: when `validate` is truthy, a falsy `schema`
option (absent or empty) throws before anything else; otherwise the schema
file is located upward from the context, read and built. -/
def loadOptions {Schema : Type} (P : Ports Schema) : Except String (LoaderOptions Schema) := do
  let o := P.rawOptions
  let schema ←
    if o.validate then
      match o.schema with
      | none => Except.error "schema option must be passed if validate is true"
      | some s =>
        if s = "" then Except.error "schema option must be passed if validate is true"
        else do
          let schemaPath ← findSchemaFile P.isFile P.context P.context s
          let schemaString ← P.readFile schemaPath
          let sch ← P.buildSchema schemaString
          pure (some sch)
    else pure none
  pure { schema := schema,
         output :=
           match o.output with
           | none => "string"
           | some out => if out = "" ∨ out = "string" then "string" else "document",
         removeUnusedFragments := o.removeUnusedFragments }

mutual

/-- Embeds `loadSource(loader, source)` followed by `extractImports`: parse, scan
for `#import` lines, resolve each path against `loader.context`, read and
recursively load every imported file, then append all their definitions
after the local ones.  `fuel` bounds the recursion depth: the source has no
cycle guard, and a cyclic import diverges (modelled as running out of
fuel). -/
def loadSourceF {Schema : Type} (P : Ports Schema) : Nat → String → Except String Document
  | 0, _ => .error "cyclic import: unbounded recursion"
  | fuel + 1, source => do
    let document ← P.parse source
    let specs ← extractImportsSpecs source
    let files ← specs.mapM (fun spec => P.resolve P.context spec)
    let contents ← files.mapM P.readFile
    let nodes ← loadListF P fuel contents
    pure { document with
      definitions := document.definitions ++ (nodes.map Document.definitions).flatten }

def loadListF {Schema : Type} (P : Ports Schema) : Nat → List String → Except String (List Document)
  | _, [] => .ok []
  | fuel, c :: cs => do
    let d ← loadSourceF P fuel c
    let ds ← loadListF P fuel cs
    pure (d :: ds)

end

mutual

/-- The action of the generic `removeSourceLocations` walk on a well-typed
selection: every `loc` becomes absent. -/
def stripSelection : Selection → Selection
  | .field n _ none => .field n none none
  | .field n _ (some ss) => .field n none (some (stripSelections ss))
  | .fragmentSpread n _ => .fragmentSpread n none
  | .inlineFragment _ ss => .inlineFragment none (stripSelections ss)

def stripSelections : List Selection → List Selection
  | [] => []
  | s :: rest => stripSelection s :: stripSelections rest

end

def stripDefinition : Definition → Definition
  | .operation n _ ss => .operation n none (stripSelections ss)
  | .fragment n t _ ss => .fragment n t none (stripSelections ss)

/-- Embeds `removeSourceLocations(document)` on a well-typed document (the generic
walk of the `JsValue` model, restricted to document trees, deletes exactly
the `loc` attributes). -/
def removeSourceLocationsDoc (doc : Document) : Document :=
  { definitions := doc.definitions.map stripDefinition, loc := none }

/-- The document transformations the loader applies between `loadSource` and
validation/serialization, in source order. -/
def pipelineDocument {Schema : Type} (options : LoaderOptions Schema) (doc0 : Document) :
    Document :=
  let doc1 := removeDuplicateFragments doc0
  let doc2 := removeSourceLocationsDoc doc1
  if options.removeUnusedFragments then removeUnusedFragments doc2 else doc2

/-- What the loader hands back to webpack: the diagnostics passed to
`this.emitError` (one per validation error, in order) and the callback's
outcome — `done(err)` or `done(null, "module.exports = …")`. -/
structure LoaderResult where
  emitted : List String
  outcome : Except String String
  deriving Repr

/-- The default export: load options, load and expand the source, dedupe,
strip, optionally prune; if a schema was built, validate and emit each
error; then serialize (printed string or document) and succeed. -/
def loader {Schema : Type} (P : Ports Schema) (fuel : Nat) (source : String) : LoaderResult :=
  match loadOptions P with
  | .error e => ⟨[], .error e⟩
  | .ok options =>
    match loadSourceF P fuel source with
    | .error e => ⟨[], .error e⟩
    | .ok doc0 =>
      let document := pipelineDocument options doc0
      let validationErrors :=
        match options.schema with
        | some schema => P.validate schema document
        | none => []
      let output :=
        if options.output = "document" then P.stringifyDocument document
        else P.stringifyString (P.printDoc document)
      ⟨validationErrors, .ok ("module.exports = " ++ output)⟩

/-- C9: when the earlier stages succeed and a schema was configured and
built, the loader reports exactly the external validator's errors — one
diagnostic per error — and still produces and returns the serialized
payload: validation errors never make the outcome a failure. -/
theorem loader_validation_nonfatal {Schema : Type} (P : Ports Schema) (fuel : Nat)
    (source : String) (options : LoaderOptions Schema) (schema : Schema) (doc0 : Document)
    (hopt : loadOptions P = .ok options) (hschema : options.schema = some schema)
    (hsrc : loadSourceF P fuel source = .ok doc0) :
    loader P fuel source =
      ⟨P.validate schema (pipelineDocument options doc0),
        .ok ("module.exports = " ++
          (if options.output = "document"
            then P.stringifyDocument (pipelineDocument options doc0)
            else P.stringifyString (P.printDoc (pipelineDocument options doc0))))⟩ := by
  rw [loader, hopt, hsrc]
  simp only [hschema]

/-- C10: with `validate: true` and no `schema` option, the loader fails with
the fatal option-loading error for every choice of the remaining ports —
in particular nothing is read, resolved or parsed — and emits no
diagnostic. -/
theorem loader_validate_requires_schema {Schema : Type} (P : Ports Schema) (fuel : Nat)
    (source : String) (hv : P.rawOptions.validate = true) (hs : P.rawOptions.schema = none) :
    loader P fuel source = ⟨[], .error "schema option must be passed if validate is true"⟩ := by
  have hopt : loadOptions P = .error "schema option must be passed if validate is true" := by
    rw [loadOptions]
    simp [hv, hs]
  rw [loader, hopt]

/-- In-memory ports for exercising the loader: validation is configured, the
schema file sits in the context directory, the source has no imports, and
the external validator reports one semantic error. -/
def witnessPorts : Ports Unit :=
  { rawOptions :=
      { schema := some "schema.json", validate := true, output := none,
        removeUnusedFragments := false },
    context := [],
    isFile := fun p => p == ["schema.json"],
    readFile := fun _ => .ok "introspection-json",
    resolve := fun _ _ => .error "no imports in the witness",
    parse := fun _ => .ok { definitions := [], loc := none },
    buildSchema := fun _ => .ok (),
    validate := fun _ _ => ["Cannot query field x"],
    printDoc := fun _ => "printed",
    stringifyString := fun s => s,
    stringifyDocument := fun _ => "doc" }

theorem witness_hfind : findSchemaFile (fun p => p == ["schema.json"]) [] [] "schema.json"
    = .ok ["schema.json"] := by
  rw [findSchemaFile]
  simp

theorem witness_hopt : loadOptions witnessPorts
    = .ok { schema := some (), output := "string", removeUnusedFragments := false } := by
  rw [loadOptions]
  simp only [witnessPorts, witness_hfind]
  rfl

theorem except_ok_bind {e a b : Type} (x : a) (f : a → Except e b) :
    (Except.ok x >>= f : Except e b) = f x := rfl

theorem except_map_ok {e a b : Type} (f : a → b) (x : a) :
    (f <$> (Except.ok x : Except e a) : Except e b) = Except.ok (f x) := rfl

theorem witness_hsrc : loadSourceF witnessPorts 1 "" = .ok { definitions := [], loc := none } := by
  have hparse : witnessPorts.parse "" = Except.ok { definitions := [], loc := none } := rfl
  have hspecs : extractImportsSpecs "" = Except.ok [] := rfl
  have hload0 : loadListF witnessPorts 0 ([] : List String) = Except.ok [] := by
    rw [loadListF]
  rw [loadSourceF, hparse, hspecs]
  simp [except_ok_bind, except_map_ok, hload0, List.mapM.loop]

theorem loader_validation_nonfatal_witness :
    loader witnessPorts 1 "" =
      ⟨["Cannot query field x"], .ok ("module.exports = " ++ "printed")⟩ := by
  rw [loader_validation_nonfatal witnessPorts 1 ""
    { schema := some (), output := "string", removeUnusedFragments := false } ()
    { definitions := [], loc := none } witness_hopt rfl witness_hsrc]
  simp [witnessPorts, pipelineDocument, removeDuplicateFragments, removeDuplicateFragmentsAux,
    removeSourceLocationsDoc]

/-- Ports with `validate: true` and no `schema` option; every other port is
inert, showing the failure happens before any of them is consulted. -/
def witnessPortsNoSchema : Ports Unit :=
  { rawOptions :=
      { schema := none, validate := true, output := none,
        removeUnusedFragments := false },
    context := ["src"],
    isFile := fun _ => false,
    readFile := fun _ => .error "never read",
    resolve := fun _ _ => .error "never resolved",
    parse := fun _ => .error "never parsed",
    buildSchema := fun _ => .error "never built",
    validate := fun _ _ => [],
    printDoc := fun _ => "",
    stringifyString := fun s => s,
    stringifyDocument := fun _ => "" }

theorem loader_validate_requires_schema_witness :
    loader witnessPortsNoSchema 3 "query Q"
      = ⟨[], .error "schema option must be passed if validate is true"⟩ :=
  loader_validate_requires_schema witnessPortsNoSchema 3 "query Q" rfl rfl

end GraphQLLoader
